import Mathlib

/-!
Verification of the MST computation engine of the telephone-planner
repository: the haversine distance metric and the edge-list variant of
Prim's algorithm (`src/lib/logic.ts`), together with the complete
candidate-edge construction used by the application.

Numbers are modelled by real numbers; the algorithm is stated
generically over a linearly ordered weight type so that concrete runs
can be evaluated with integer or rational weights.
-/

/-- A point, as consumed by the algorithm (`interface Village` in
`src/lib/logic.ts`): an integer identifier and geographic coordinates. -/
structure Village where
  id : Int
  lat : ℝ
  lon : ℝ

/-- An edge between two point identifiers (`interface Edge`): endpoints
`from`/`to`, a weight, and an optional `distance` payload field that the
algorithm itself never reads. -/
structure Edge (α : Type) where
  «from» : Int
  «to» : Int
  weight : α
  distance : Option α
deriving DecidableEq

/-- The record returned by `runPrimsAlgorithm`: the MST edge list and the
acceptance-ordered sequence. -/
structure MSTResult (α : Type) where
  mst : List (Edge α)
  sequence : List (Edge α)
deriving DecidableEq

/-- The two-argument arctangent, following the usual `Math.atan2`
conventions of the source language. -/
noncomputable def atan2 (y x : ℝ) : ℝ :=
  if 0 < x then Real.arctan (y / x)
  else if x < 0 then
    (if 0 ≤ y then Real.arctan (y / x) + Real.pi else Real.arctan (y / x) - Real.pi)
  else
    (if 0 < y then Real.pi / 2 else if y < 0 then -(Real.pi / 2) else 0)

/-- The haversine great-circle distance of `src/lib/logic.ts`, with the
Earth radius 6371 km. -/
noncomputable def haversineDistance (lat1 lon1 lat2 lon2 : ℝ) : ℝ :=
  let R : ℝ := 6371
  let dLat := (lat2 - lat1) * Real.pi / 180
  let dLon := (lon2 - lon1) * Real.pi / 180
  let a := Real.sin (dLat / 2) * Real.sin (dLat / 2) +
    Real.cos (lat1 * Real.pi / 180) * Real.cos (lat2 * Real.pi / 180) *
      Real.sin (dLon / 2) * Real.sin (dLon / 2)
  let c := 2 * atan2 (Real.sqrt a) (Real.sqrt (1 - a))
  R * c

/-- The frontier test of the scan in `runPrimsAlgorithm`:
`(fromVisited && !toVisited) || (!fromVisited && toVisited)`. -/
def isFrontier {α : Type} (visited : Finset Int) (e : Edge α) : Bool :=
  (decide (e.«from» ∈ visited) && !decide (e.«to» ∈ visited)) ||
    (!decide (e.«from» ∈ visited) && decide (e.«to» ∈ visited))

/-- The endpoint added to the visited set after accepting an edge:
`visited.has(minEdge.from) ? minEdge.to : minEdge.from`. -/
def newVertex {α : Type} (e : Edge α) (visited : Finset Int) : Int :=
  if e.«from» ∈ visited then e.«to» else e.«from»

/-- One step of the scan in `runPrimsAlgorithm`: keep the current best
frontier edge, replacing it only when the new edge is a frontier edge of
strictly smaller weight. -/
def primScanStep {α : Type} [LinearOrder α] (visited : Finset Int)
    (minEdge : Option (Edge α)) (e : Edge α) : Option (Edge α) :=
  if isFrontier visited e then
    match minEdge with
    | none => some e
    | some m => if e.weight < m.weight then some e else some m
  else minEdge

/-- The inner scan of `runPrimsAlgorithm`: fold `primScanStep` over the
candidate list starting from `null`. -/
def findMinEdge {α : Type} [LinearOrder α] (allEdges : List (Edge α))
    (visited : Finset Int) : Option (Edge α) :=
  allEdges.foldl (primScanStep visited) none

/-- The while loop of `runPrimsAlgorithm`, with an explicit fuel bound on
the number of guard checks.  Each iteration tests `visited.size < n`,
scans for the minimum frontier edge, and either accepts it (pushing it to
both accumulators and visiting its new endpoint) or breaks. -/
def primsLoop {α : Type} [LinearOrder α] (n : Nat) (allEdges : List (Edge α)) :
    Nat → Finset Int → List (Edge α) → List (Edge α) → MSTResult α
  | 0, _, mst, seq => ⟨mst, seq⟩
  | fuel + 1, visited, mst, seq =>
    if visited.card < n then
      match findMinEdge allEdges visited with
      | some m =>
          primsLoop n allEdges fuel (insert (newVertex m visited) visited)
            (mst ++ [m]) (seq ++ [m])
      | none => ⟨mst, seq⟩
    else ⟨mst, seq⟩

/-- `runPrimsAlgorithm` of `src/lib/logic.ts`: empty input returns the
empty result; otherwise the start is `startNodeId ?? villages[0].id` and
the loop runs until every point is visited or no frontier edge exists.
The fuel `villages.length` dominates the loop's iteration count. -/
def runPrimsAlgorithm {α : Type} [LinearOrder α] (villages : List Village)
    (allEdges : List (Edge α)) (startNodeId : Option Int) : MSTResult α :=
  match villages with
  | [] => ⟨[], []⟩
  | v :: _ =>
    let startingPoint := startNodeId.getD v.id
    primsLoop villages.length allEdges villages.length {startingPoint} [] []

/-- The candidate edge construction of the application (`App`): nested
loops `i` outer, `j > i` inner, pushing an edge from `villages[i]` to
`villages[j]` whose `weight` and `distance` are both the haversine
distance. -/
noncomputable def completeEdges : List Village → List (Edge ℝ)
  | [] => []
  | v :: rest =>
    rest.map (fun u =>
      { «from» := v.id, «to» := u.id,
        weight := haversineDistance v.lat v.lon u.lat u.lon,
        distance := some (haversineDistance v.lat v.lon u.lat u.lon) }) ++
      completeEdges rest

/-- The identifier list of a point list. -/
def idsOf (villages : List Village) : List Int :=
  villages.map Village.id

/-- The ordered endpoint pair of an edge. -/
def pr {α : Type} (e : Edge α) : Int × Int :=
  (e.«from», e.«to»)

/-- The finite set of endpoint pairs of an edge list. -/
def prFinset {α : Type} (l : List (Edge α)) : Finset (Int × Int) :=
  (l.map pr).toFinset

/-- A stored pair joins `u` and `v` in either orientation. -/
def touches (g : Int × Int) (u v : Int) : Prop :=
  g = (u, v) ∨ g = (v, u)

/-- One undirected step along some pair of `E`. -/
def EStep (E : Finset (Int × Int)) (u v : Int) : Prop :=
  ∃ g ∈ E, touches g u v

/-- Reachability along the pairs of `E`, in any orientation. -/
def Reach (E : Finset (Int × Int)) : Int → Int → Prop :=
  Relation.ReflTransGen (EStep E)

/-- A pair with exactly one endpoint in `W` (a frontier pair for the cut
at `W`). -/
def Crosses (W : Finset Int) (g : Int × Int) : Prop :=
  (g.1 ∈ W ∧ g.2 ∉ W) ∨ (g.1 ∉ W ∧ g.2 ∈ W)

/-- `E` connects every two vertices of `S`. -/
def Connects (E : Finset (Int × Int)) (S : Finset Int) : Prop :=
  ∀ u ∈ S, ∀ v ∈ S, Reach E u v

/-- Every pair of `E` is a bridge: its endpoints are not joined by the
remaining pairs.  For finite graphs this is the absence of cycles. -/
def Acyclic (E : Finset (Int × Int)) : Prop :=
  ∀ g ∈ E, ¬ Reach (E.erase g) g.1 g.2

/-- A spanning tree of the candidate graph with pair set `P` on the
vertex set `S`: a subset of the candidate pairs that connects all of `S`
and has no cycles. -/
def IsSpanningTree (P : Finset (Int × Int)) (S : Finset Int)
    (T : Finset (Int × Int)) : Prop :=
  T ⊆ P ∧ Connects T S ∧ Acyclic T

/-- The weight a candidate edge list assigns to an endpoint pair: the
weight of the first listed edge carrying that pair (0 if none). -/
def pairWeight (es : List (Edge ℝ)) (p : Int × Int) : ℝ :=
  ((es.find? (fun e2 => decide (pr e2 = p))).map Edge.weight).getD 0

/-- The total weight of an edge list. -/
def mstWeight (l : List (Edge ℝ)) : ℝ :=
  (l.map Edge.weight).sum

/-- The arctangent of the origin direction (1, 0) is 0. -/
theorem atan2_zero_one : atan2 0 1 = 0 := by
  rw [atan2, if_pos (by norm_num : (0:ℝ) < 1)]
  norm_num [Real.arctan_zero]

/-- Claim C7: the haversine distance is symmetric in its two coordinate
pairs: `haversineDistance latA lonA latB lonB` equals
`haversineDistance latB lonB latA lonA` for all real coordinates. -/
theorem spec_C7_distance_symm (lat1 lon1 lat2 lon2 : ℝ) :
    haversineDistance lat1 lon1 lat2 lon2 = haversineDistance lat2 lon2 lat1 lon1 := by
  simp only [haversineDistance]
  rw [show (lat1 - lat2) * Real.pi / 180 / 2 = -((lat2 - lat1) * Real.pi / 180 / 2) by ring,
    show (lon1 - lon2) * Real.pi / 180 / 2 = -((lon2 - lon1) * Real.pi / 180 / 2) by ring,
    Real.sin_neg, Real.sin_neg]
  ring_nf

/-- Claim C8: the haversine distance from any point to itself is exactly
zero: `haversineDistance lat lon lat lon = 0` for all real coordinates. -/
theorem spec_C8_distance_self (lat lon : ℝ) :
    haversineDistance lat lon lat lon = 0 := by
  simp only [haversineDistance, sub_self, zero_mul, zero_div, Real.sin_zero, mul_zero,
    zero_add, add_zero, Real.sqrt_zero, sub_zero, Real.sqrt_one, atan2_zero_one]

/-- The Boolean frontier test, as a proposition. -/
theorem isFrontier_true_iff {α : Type} (visited : Finset Int) (e : Edge α) :
    isFrontier visited e = true ↔
      ((e.«from» ∈ visited ∧ e.«to» ∉ visited) ∨ (e.«from» ∉ visited ∧ e.«to» ∈ visited)) := by
  simp [isFrontier]

/-- After accepting a frontier edge, the vertex added to the visited set
is its unvisited endpoint, and its other endpoint was visited. -/
theorem newVertex_spec {α : Type} {visited : Finset Int} {e : Edge α}
    (h : isFrontier visited e = true) :
    (e.«from» ∈ visited ∧ e.«to» ∉ visited ∧ newVertex e visited = e.«to») ∨
      (e.«from» ∉ visited ∧ e.«to» ∈ visited ∧ newVertex e visited = e.«from») := by
  rcases (isFrontier_true_iff _ _).1 h with ⟨h1, h2⟩ | ⟨h1, h2⟩
  · exact Or.inl ⟨h1, h2, by simp [newVertex, h1]⟩
  · exact Or.inr ⟨h1, h2, by simp [newVertex, h1]⟩

/-- The vertex added after accepting a frontier edge is new. -/
theorem newVertex_not_mem {α : Type} {visited : Finset Int} {e : Edge α}
    (h : isFrontier visited e = true) : newVertex e visited ∉ visited := by
  rcases newVertex_spec h with ⟨_, h2, h3⟩ | ⟨h1, _, h3⟩ <;> rw [h3] <;> assumption

/-- A scan step yields `null` only if nothing was held and the edge was
not a frontier edge. -/
theorem primScanStep_eq_none {α : Type} [LinearOrder α] {visited : Finset Int}
    {acc : Option (Edge α)} {e : Edge α} :
    primScanStep visited acc e = none ↔ acc = none ∧ isFrontier visited e = false := by
  by_cases hf : isFrontier visited e
  · cases acc <;> simp [primScanStep, hf]
    split <;> simp
  · cases acc <;> simp [primScanStep, hf]

/-- Characterisation of the scan fold: a returned edge is either the
initial accumulator, still minimal among the frontier edges scanned, or
a frontier edge of the list that strictly improves on every frontier
edge before it and on the initial accumulator, and is not beaten by any
frontier edge after it. -/
theorem foldl_primScanStep_some {α : Type} [LinearOrder α] (visited : Finset Int) :
    ∀ (es : List (Edge α)) (acc : Option (Edge α)) (m : Edge α),
      es.foldl (primScanStep visited) acc = some m →
      (acc = some m ∧ ∀ e ∈ es, isFrontier visited e = true → m.weight ≤ e.weight) ∨
      (∃ l₁ l₂, es = l₁ ++ m :: l₂ ∧ isFrontier visited m = true ∧
        (∀ e ∈ l₁, isFrontier visited e = true → m.weight < e.weight) ∧
        (∀ m₀, acc = some m₀ → m.weight < m₀.weight) ∧
        (∀ e ∈ l₂, isFrontier visited e = true → m.weight ≤ e.weight)) := by
  intro es
  induction es with
  | nil =>
    intro acc m h
    exact Or.inl ⟨h, by simp⟩
  | cons e rest ih =>
    intro acc m h
    rw [List.foldl_cons] at h
    rcases ih (primScanStep visited acc e) m h with ⟨hacc, hrest⟩ | ⟨l₁, l₂, hsplit, hfm, hl₁, hacc, hl₂⟩
    · -- the accumulator produced by the first step survived the rest
      by_cases hf : isFrontier visited e
      · cases acc with
        | none =>
          -- step selected e itself
          have he : m = e := by
            simp [primScanStep, hf] at hacc
            exact hacc.symm
          subst he
          exact Or.inr ⟨[], rest, by simp, hf, by simp, by simp, hrest⟩
        | some m₀ =>
          by_cases hw : e.weight < m₀.weight
          · have he : m = e := by
              simp [primScanStep, hf, hw] at hacc
              exact hacc.symm
            subst he
            exact Or.inr ⟨[], rest, by simp, hf, by simp,
              fun x hx => by cases hx; exact hw, hrest⟩
          · have he : m = m₀ := by
              simp [primScanStep, hf, hw] at hacc
              exact hacc.symm
            subst he
            refine Or.inl ⟨rfl, ?_⟩
            intro e' he' hfe'
            rcases List.mem_cons.1 he' with rfl | he'
            · exact le_of_not_lt hw
            · exact hrest e' he' hfe'
      · have hstep : primScanStep visited acc e = acc := by
          simp [primScanStep, hf]
        rw [hstep] at hacc
        refine Or.inl ⟨hacc, ?_⟩
        intro e' he' hfe'
        rcases List.mem_cons.1 he' with rfl | he'
        · exact absurd hfe' (by simp [hf])
        · exact hrest e' he' hfe'
    · -- the result was selected somewhere within the rest of the list
      by_cases hf : isFrontier visited e
      · cases acc with
        | none =>
          have hstep : primScanStep visited none e = some e := by
            simp [primScanStep, hf]
          rw [hstep] at hacc
          have hme : m.weight < e.weight := hacc e rfl
          refine Or.inr ⟨e :: l₁, l₂, by rw [hsplit]; rfl, hfm, ?_, by simp, hl₂⟩
          intro e' he' hfe'
          rcases List.mem_cons.1 he' with rfl | he'
          · exact hme
          · exact hl₁ e' he' hfe'
        | some m₀ =>
          by_cases hw : e.weight < m₀.weight
          · have hstep : primScanStep visited (some m₀) e = some e := by
              simp [primScanStep, hf, hw]
            rw [hstep] at hacc
            have hme : m.weight < e.weight := hacc e rfl
            refine Or.inr ⟨e :: l₁, l₂, by rw [hsplit]; rfl, hfm, ?_,
              fun x hx => by cases hx; exact lt_trans hme hw, hl₂⟩
            intro e' he' hfe'
            rcases List.mem_cons.1 he' with rfl | he'
            · exact hme
            · exact hl₁ e' he' hfe'
          · have hstep : primScanStep visited (some m₀) e = some m₀ := by
              simp [primScanStep, hf, hw]
            rw [hstep] at hacc
            have hm₀ : m.weight < m₀.weight := hacc m₀ rfl
            refine Or.inr ⟨e :: l₁, l₂, by rw [hsplit]; rfl, hfm, ?_,
              fun x hx => by cases hx; exact hm₀, hl₂⟩
            intro e' he' hfe'
            rcases List.mem_cons.1 he' with rfl | he'
            · exact lt_of_lt_of_le hm₀ (le_of_not_lt hw)
            · exact hl₁ e' he' hfe'
      · have hstep : primScanStep visited acc e = acc := by
          simp [primScanStep, hf]
        rw [hstep] at hacc
        refine Or.inr ⟨e :: l₁, l₂, by rw [hsplit]; rfl, hfm, ?_, hacc, hl₂⟩
        intro e' he' hfe'
        rcases List.mem_cons.1 he' with rfl | he'
        · exact absurd hfe' (by simp [hf])
        · exact hl₁ e' he' hfe'

/-- A selected edge is a frontier edge occurring in the list, beats every
earlier frontier edge strictly, and is minimal among all frontier edges. -/
theorem findMinEdge_some_spec {α : Type} [LinearOrder α] {es : List (Edge α)}
    {visited : Finset Int} {m : Edge α} (h : findMinEdge es visited = some m) :
    ∃ l₁ l₂, es = l₁ ++ m :: l₂ ∧ isFrontier visited m = true ∧
      (∀ e ∈ l₁, isFrontier visited e = true → m.weight < e.weight) ∧
      (∀ e ∈ es, isFrontier visited e = true → m.weight ≤ e.weight) := by
  rcases foldl_primScanStep_some visited es none m h with ⟨hacc, _⟩ |
    ⟨l₁, l₂, hsplit, hfm, hl₁, _, hl₂⟩
  · cases hacc
  · refine ⟨l₁, l₂, hsplit, hfm, hl₁, ?_⟩
    intro e he hfe
    rw [hsplit] at he
    rcases List.mem_append.1 he with he | he
    · exact le_of_lt (hl₁ e he hfe)
    · rcases List.mem_cons.1 he with rfl | he
      · exact le_refl _
      · exact hl₂ e he hfe

/-- A selected edge belongs to the candidate list. -/
theorem findMinEdge_mem {α : Type} [LinearOrder α] {es : List (Edge α)}
    {visited : Finset Int} {m : Edge α} (h : findMinEdge es visited = some m) :
    m ∈ es := by
  obtain ⟨l₁, l₂, hsplit, -, -, -⟩ := findMinEdge_some_spec h
  rw [hsplit]
  simp

/-- A selected edge is a frontier edge. -/
theorem findMinEdge_frontier {α : Type} [LinearOrder α] {es : List (Edge α)}
    {visited : Finset Int} {m : Edge α} (h : findMinEdge es visited = some m) :
    isFrontier visited m = true := by
  obtain ⟨-, -, -, hf, -, -⟩ := findMinEdge_some_spec h
  exact hf

/-- The scan fold returns `null` exactly when it started empty and saw no
frontier edge. -/
theorem foldl_primScanStep_none {α : Type} [LinearOrder α] (visited : Finset Int) :
    ∀ (es : List (Edge α)) (acc : Option (Edge α)),
      es.foldl (primScanStep visited) acc = none ↔
        (acc = none ∧ ∀ e ∈ es, isFrontier visited e = false) := by
  intro es
  induction es with
  | nil => intro acc; simp
  | cons e rest ih =>
    intro acc
    rw [List.foldl_cons, ih]
    constructor
    · rintro ⟨hs, hrest⟩
      have hh := primScanStep_eq_none.1 hs
      refine ⟨hh.1, fun e' he' => ?_⟩
      rcases List.mem_cons.1 he' with rfl | h
      · exact hh.2
      · exact hrest e' h
    · rintro ⟨hacc, hall⟩
      refine ⟨primScanStep_eq_none.2 ⟨hacc, hall e (List.mem_cons_self e rest)⟩,
        fun e' he' => hall e' (List.mem_cons_of_mem _ he')⟩

/-- The scan returns `null` exactly when no candidate is a frontier edge. -/
theorem findMinEdge_eq_none {α : Type} [LinearOrder α] {es : List (Edge α)}
    {visited : Finset Int} :
    findMinEdge es visited = none ↔ ∀ e ∈ es, isFrontier visited e = false := by
  rw [findMinEdge, foldl_primScanStep_none]
  simp

/-- If some candidate is a frontier edge, the scan selects an edge. -/
theorem findMinEdge_isSome {α : Type} [LinearOrder α] {es : List (Edge α)}
    {visited : Finset Int} (h : ∃ e ∈ es, isFrontier visited e = true) :
    ∃ m, findMinEdge es visited = some m := by
  cases hm : findMinEdge es visited with
  | some m => exact ⟨m, rfl⟩
  | none =>
    obtain ⟨e, hee, hf⟩ := h
    have := findMinEdge_eq_none.1 hm e hee
    rw [hf] at this
    cases this

/-- The loop pushes every accepted edge to both accumulators, so equal
accumulators stay equal. -/
theorem primsLoop_mst_eq_sequence {α : Type} [LinearOrder α] (n : Nat)
    (es : List (Edge α)) :
    ∀ (fuel : Nat) (visited : Finset Int) (mst seq : List (Edge α)), mst = seq →
      (primsLoop n es fuel visited mst seq).mst =
        (primsLoop n es fuel visited mst seq).sequence := by
  intro fuel
  induction fuel with
  | zero =>
    intro visited mst seq h
    simpa [primsLoop] using h
  | succ fuel ih =>
    intro visited mst seq h
    simp only [primsLoop]
    by_cases hc : visited.card < n
    · rw [if_pos hc]
      cases hm : findMinEdge es visited with
      | some m => exact ih _ _ _ (by rw [h])
      | none => simpa using h
    · rw [if_neg hc]
      simpa using h

/-- When no frontier edge exists, the loop returns the accumulated
partial result whatever the remaining fuel. -/
theorem primsLoop_none {α : Type} [LinearOrder α] {es : List (Edge α)}
    {visited : Finset Int} (h : findMinEdge es visited = none) (n : Nat)
    (mst seq : List (Edge α)) :
    ∀ fuel, primsLoop n es fuel visited mst seq = ⟨mst, seq⟩ := by
  intro fuel
  cases fuel with
  | zero => rfl
  | succ fuel =>
    simp only [primsLoop]
    by_cases hc : visited.card < n
    · rw [if_pos hc, h]
    · rw [if_neg hc]

/-- The loop's result is stable once the fuel reaches `n - visited.card`:
the while loop performs at most that many further iterations. -/
theorem primsLoop_stable {α : Type} [LinearOrder α] (n : Nat) (es : List (Edge α)) :
    ∀ (fuel : Nat) (visited : Finset Int) (mst seq : List (Edge α)),
      n - visited.card ≤ fuel →
      primsLoop n es fuel visited mst seq =
        primsLoop n es (n - visited.card) visited mst seq := by
  intro fuel
  induction fuel with
  | zero =>
    intro visited mst seq h
    rw [Nat.le_zero.1 h]
  | succ fuel ih =>
    intro visited mst seq h
    by_cases hc : visited.card < n
    · obtain ⟨k, hk⟩ : ∃ k, n - visited.card = k + 1 :=
        ⟨n - visited.card - 1, by omega⟩
      rw [hk]
      simp only [primsLoop]
      rw [if_pos hc, if_pos hc]
      cases hm : findMinEdge es visited with
      | none => rfl
      | some m =>
        dsimp only
        have hnv : newVertex m visited ∉ visited :=
          newVertex_not_mem (findMinEdge_frontier hm)
        have hcard : (insert (newVertex m visited) visited).card = visited.card + 1 :=
          Finset.card_insert_of_not_mem hnv
        have h1 : n - (insert (newVertex m visited) visited).card ≤ fuel := by omega
        have h2 : n - (insert (newVertex m visited) visited).card = k := by omega
        rw [ih _ _ _ h1, h2]
    · have h0 : n - visited.card = 0 := by omega
      rw [h0]
      simp only [primsLoop]
      rw [if_neg hc]

/-- Claim C9: the while loop of `runPrimsAlgorithm` terminates on every
input: its result is already stable at fuel `n`, so any two sufficient
fuel bounds give the same result, and whenever the scan finds no
frontier edge the loop exits at once with the partial result built so
far. -/
theorem spec_C9_terminates {α : Type} [LinearOrder α] (n : Nat) (es : List (Edge α))
    (visited : Finset Int) (mst seq : List (Edge α)) (fuel₁ fuel₂ : Nat)
    (h₁ : n ≤ fuel₁) (h₂ : n ≤ fuel₂) :
    primsLoop n es fuel₁ visited mst seq = primsLoop n es fuel₂ visited mst seq ∧
      (findMinEdge es visited = none →
        primsLoop n es fuel₁ visited mst seq = ⟨mst, seq⟩) := by
  constructor
  · rw [primsLoop_stable n es fuel₁ visited mst seq (by omega),
      primsLoop_stable n es fuel₂ visited mst seq (by omega)]
  · intro h
    exact primsLoop_none h n mst seq fuel₁

/-- Witness for C9 at a concrete disconnected input: no candidate edges
at all, two points, differing fuels. -/
theorem spec_C9_terminates_witness :
    (2 : Nat) ≤ 7 ∧ (2 : Nat) ≤ 2 ∧
      (primsLoop (α := Int) 2 [] 7 {1} [] [] = primsLoop 2 [] 2 {1} [] [] ∧
        (findMinEdge (α := Int) [] {1} = none →
          primsLoop (α := Int) 2 [] 7 {1} [] [] = ⟨[], []⟩)) :=
  ⟨by norm_num, by norm_num,
    spec_C9_terminates 2 [] {1} [] [] 7 2 (by norm_num) (by norm_num)⟩

/-- Claim C6: for every input, the `mst` and `sequence` components of the
result of `runPrimsAlgorithm` are the same list. -/
theorem spec_C6_mst_eq_sequence {α : Type} [LinearOrder α] (villages : List Village)
    (es : List (Edge α)) (start : Option Int) :
    (runPrimsAlgorithm villages es start).mst =
      (runPrimsAlgorithm villages es start).sequence := by
  cases villages with
  | nil => rfl
  | cons v rest => exact primsLoop_mst_eq_sequence _ _ _ _ _ _ rfl

/-- Claim C5: with a non-empty point list and no `startNodeId`, the run
is identical to passing the first point's id explicitly. -/
theorem spec_C5_default_start {α : Type} [LinearOrder α] (villages : List Village)
    (es : List (Edge α)) (h : villages ≠ []) :
    runPrimsAlgorithm villages es none =
      runPrimsAlgorithm villages es (some ((villages.head h).id)) := by
  cases villages with
  | nil => exact absurd rfl h
  | cons v rest => rfl

/-- Witness for C5 at a concrete one-point input. -/
theorem spec_C5_default_start_witness :
    ([⟨1, 0, 0⟩] : List Village) ≠ [] ∧
      runPrimsAlgorithm (α := Int) [⟨1, 0, 0⟩] [] none =
        runPrimsAlgorithm (α := Int) [⟨1, 0, 0⟩] [] (some 1) :=
  ⟨by simp, spec_C5_default_start [⟨1, 0, 0⟩] [] (by simp)⟩

/-- Counterexample to claim C4 as stated: with two points and an absent
start id the algorithm does not return the empty result (it falls back
to the first point and builds an edge). -/
theorem spec_C4_counterexample :
    ¬ (runPrimsAlgorithm (α := Int) [⟨1, 0, 0⟩, ⟨2, 0, 0⟩] [⟨1, 2, 5, none⟩] none =
      ⟨[], []⟩) := by
  decide

/-- Claim C4, amended: for every input whose point list has fewer than 2
points, `runPrimsAlgorithm` returns the empty result (an absent start id
alone does not make the result empty: it falls back to the first point). -/
theorem spec_C4_small_input {α : Type} [LinearOrder α] (villages : List Village)
    (es : List (Edge α)) (start : Option Int) (h : villages.length < 2) :
    runPrimsAlgorithm villages es start = ⟨[], []⟩ := by
  match villages with
  | [] => rfl
  | [v] =>
    simp only [runPrimsAlgorithm, List.length_singleton, primsLoop]
    rw [if_neg (by simp)]
  | v :: w :: rest => simp at h; omega

/-- Witness for the amended C4 at a concrete one-point input. -/
theorem spec_C4_small_input_witness :
    ([⟨1, 0, 0⟩] : List Village).length < 2 ∧
      runPrimsAlgorithm (α := Int) [⟨1, 0, 0⟩] [⟨1, 2, 5, none⟩] (some 1) = ⟨[], []⟩ :=
  ⟨by simp, spec_C4_small_input [⟨1, 0, 0⟩] [⟨1, 2, 5, none⟩] (some 1) (by simp)⟩

/-- Claim C10: a supplied start id that is no endpoint of any candidate
edge yields the empty result: the first scan finds no frontier edge. -/
theorem spec_C10_unknown_start {α : Type} [LinearOrder α] (villages : List Village)
    (es : List (Edge α)) (s : Int) (hne : villages ≠ [])
    (hs : ∀ e ∈ es, e.«from» ≠ s ∧ e.«to» ≠ s) :
    runPrimsAlgorithm villages es (some s) = ⟨[], []⟩ := by
  cases villages with
  | nil => exact absurd rfl hne
  | cons v rest =>
    have hnone : findMinEdge es ({s} : Finset Int) = none :=
      findMinEdge_eq_none.2 (fun e he => by
        have hh := hs e he
        simp [isFrontier, Finset.mem_singleton, hh.1, hh.2])
    exact primsLoop_none hnone _ _ _ _

/-- Witness for C10 at a concrete input: start id 9 touches no edge. -/
theorem spec_C10_unknown_start_witness :
    ([⟨1, 0, 0⟩, ⟨2, 0, 0⟩] : List Village) ≠ [] ∧
      (∀ e ∈ ([⟨1, 2, 5, none⟩] : List (Edge Int)), e.«from» ≠ 9 ∧ e.«to» ≠ 9) ∧
      runPrimsAlgorithm (α := Int) [⟨1, 0, 0⟩, ⟨2, 0, 0⟩] [⟨1, 2, 5, none⟩] (some 9) =
        ⟨[], []⟩ :=
  ⟨by simp, by decide,
    spec_C10_unknown_start [⟨1, 0, 0⟩, ⟨2, 0, 0⟩] [⟨1, 2, 5, none⟩] 9 (by simp) (by decide)⟩

/-- Claim C3: in every iteration of the loop, the selected edge is a
frontier edge that occurs first in candidate order among those of
minimum weight (every earlier frontier edge is strictly heavier, no
frontier edge is lighter), and it is the edge appended to both `mst` and
`sequence`; the selection is a pure function of the candidate list. -/
theorem spec_C3_tie_break {α : Type} [LinearOrder α] (n : Nat) (es : List (Edge α))
    (visited : Finset Int) (mst seq : List (Edge α)) (fuel : Nat) (m : Edge α)
    (hcard : visited.card < n) (hfind : findMinEdge es visited = some m) :
    (∃ l₁ l₂, es = l₁ ++ m :: l₂ ∧ isFrontier visited m = true ∧
      (∀ e ∈ l₁, isFrontier visited e = true → m.weight < e.weight) ∧
      (∀ e ∈ es, isFrontier visited e = true → m.weight ≤ e.weight)) ∧
    primsLoop n es (fuel + 1) visited mst seq =
      primsLoop n es fuel (insert (newVertex m visited) visited)
        (mst ++ [m]) (seq ++ [m]) := by
  refine ⟨findMinEdge_some_spec hfind, ?_⟩
  simp only [primsLoop]
  rw [if_pos hcard, hfind]

/-- Witness for C3 at a concrete weight tie: edges 2 and 3 share the
minimum weight and the earlier one is selected. -/
theorem spec_C3_tie_break_witness :
    (({1} : Finset Int).card < 2 ∧
        findMinEdge (α := Int) [⟨2, 3, 5, none⟩, ⟨1, 2, 3, none⟩, ⟨1, 3, 3, none⟩] {1} =
          some ⟨1, 2, 3, none⟩) ∧
      ((∃ l₁ l₂,
          ([⟨2, 3, 5, none⟩, ⟨1, 2, 3, none⟩, ⟨1, 3, 3, none⟩] : List (Edge Int)) =
            l₁ ++ ⟨1, 2, 3, none⟩ :: l₂ ∧
          isFrontier {1} (⟨1, 2, 3, none⟩ : Edge Int) = true ∧
          (∀ e ∈ l₁, isFrontier {1} e = true → (3 : Int) < e.weight) ∧
          (∀ e ∈ ([⟨2, 3, 5, none⟩, ⟨1, 2, 3, none⟩, ⟨1, 3, 3, none⟩] : List (Edge Int)),
            isFrontier {1} e = true → (3 : Int) ≤ e.weight)) ∧
        primsLoop (α := Int) 2 [⟨2, 3, 5, none⟩, ⟨1, 2, 3, none⟩, ⟨1, 3, 3, none⟩] 1 {1} [] [] =
          primsLoop 2 [⟨2, 3, 5, none⟩, ⟨1, 2, 3, none⟩, ⟨1, 3, 3, none⟩] 0
            (insert (newVertex (⟨1, 2, 3, none⟩ : Edge Int) {1}) {1})
            [⟨1, 2, 3, none⟩] [⟨1, 2, 3, none⟩]) :=
  ⟨⟨by decide, by decide⟩,
    spec_C3_tie_break 2 [⟨2, 3, 5, none⟩, ⟨1, 2, 3, none⟩, ⟨1, 3, 3, none⟩] {1} [] [] 0
      ⟨1, 2, 3, none⟩ (by decide) (by decide)⟩

/-- The identifiers of a cons cell. -/
theorem idsOf_cons (v : Village) (rest : List Village) :
    idsOf (v :: rest) = v.id :: idsOf rest := rfl

/-- Every candidate edge joins identifiers of the input points. -/
theorem completeEdges_endpoints :
    ∀ (vs : List Village), ∀ e ∈ completeEdges vs,
      e.«from» ∈ idsOf vs ∧ e.«to» ∈ idsOf vs := by
  intro vs
  induction vs with
  | nil => intro e he; simp [completeEdges] at he
  | cons v rest ih =>
    intro e he
    simp only [completeEdges, List.mem_append, List.mem_map] at he
    rcases he with ⟨u, hu, rfl⟩ | he
    · refine ⟨by simp [idsOf_cons], ?_⟩
      rw [idsOf_cons]
      exact List.mem_cons_of_mem _ (List.mem_map_of_mem _ hu)
    · have hh := ih e he
      rw [idsOf_cons]
      exact ⟨List.mem_cons_of_mem _ hh.1, List.mem_cons_of_mem _ hh.2⟩

/-- The candidate list contains an edge between any two distinct input
identifiers, in one orientation or the other. -/
theorem completeEdges_complete :
    ∀ (vs : List Village) (x y : Int), x ∈ idsOf vs → y ∈ idsOf vs → x ≠ y →
      ∃ e ∈ completeEdges vs,
        (e.«from» = x ∧ e.«to» = y) ∨ (e.«from» = y ∧ e.«to» = x) := by
  intro vs
  induction vs with
  | nil => intro x y hx; simp [idsOf] at hx
  | cons v rest ih =>
    intro x y hx hy hxy
    rw [idsOf_cons, List.mem_cons] at hx hy
    rcases hx with rfl | hx
    · rcases hy with rfl | hy
      · exact absurd rfl hxy
      · obtain ⟨u, hu, hy'⟩ := List.mem_map.1 hy
        refine ⟨Edge.mk v.id u.id (haversineDistance v.lat v.lon u.lat u.lon)
          (some (haversineDistance v.lat v.lon u.lat u.lon)), ?_, Or.inl ⟨rfl, hy'⟩⟩
        simp only [completeEdges, List.mem_append]
        exact Or.inl (List.mem_map_of_mem _ hu)
    · rcases hy with rfl | hy
      · obtain ⟨u, hu, hx'⟩ := List.mem_map.1 hx
        refine ⟨Edge.mk v.id u.id (haversineDistance v.lat v.lon u.lat u.lon)
          (some (haversineDistance v.lat v.lon u.lat u.lon)), ?_, Or.inr ⟨rfl, hx'⟩⟩
        simp only [completeEdges, List.mem_append]
        exact Or.inl (List.mem_map_of_mem _ hu)
      · obtain ⟨e, hee, hor⟩ := ih x y hx hy hxy
        refine ⟨e, ?_, hor⟩
        simp only [completeEdges, List.mem_append]
        exact Or.inr hee

/-- A complete candidate list always offers a frontier edge while the
visited set is a non-empty proper part of the vertex set. -/
theorem frontier_exists {α : Type} [LinearOrder α] {S : Finset Int}
    {es : List (Edge α)} {visited : Finset Int}
    (hcomp : ∀ x ∈ S, ∀ y ∈ S, x ≠ y →
      ∃ e ∈ es, (e.«from» = x ∧ e.«to» = y) ∨ (e.«from» = y ∧ e.«to» = x))
    (hsub : visited ⊆ S) (hne : visited.Nonempty) (hc : visited.card < S.card) :
    ∃ e ∈ es, isFrontier visited e = true := by
  obtain ⟨x, hx⟩ := hne
  obtain ⟨y, hyS, hyv⟩ : ∃ y ∈ S, y ∉ visited := by
    by_contra hcon
    push_neg at hcon
    exact absurd (Finset.card_le_card hcon) (by omega)
  have hxy : x ≠ y := fun h => hyv (h ▸ hx)
  obtain ⟨e, hee, hor⟩ := hcomp x (hsub hx) y hyS hxy
  refine ⟨e, hee, (isFrontier_true_iff _ _).2 ?_⟩
  rcases hor with ⟨h1, h2⟩ | ⟨h1, h2⟩
  · exact Or.inl ⟨by rw [h1]; exact hx, by rw [h2]; exact hyv⟩
  · exact Or.inr ⟨by rw [h1]; exact hyv, by rw [h2]; exact hx⟩

/-- With a complete candidate list, each loop iteration accepts exactly
one edge, so the sequence grows to `seq.length + (|S| - |visited|)`. -/
theorem primsLoop_length {α : Type} [LinearOrder α] (S : Finset Int)
    (es : List (Edge α))
    (hend : ∀ e ∈ es, e.«from» ∈ S ∧ e.«to» ∈ S)
    (hcomp : ∀ x ∈ S, ∀ y ∈ S, x ≠ y →
      ∃ e ∈ es, (e.«from» = x ∧ e.«to» = y) ∨ (e.«from» = y ∧ e.«to» = x)) :
    ∀ (fuel : Nat) (visited : Finset Int) (mst seq : List (Edge α)),
      visited ⊆ S → visited.Nonempty → S.card - visited.card ≤ fuel →
      (primsLoop S.card es fuel visited mst seq).sequence.length =
        seq.length + (S.card - visited.card) := by
  intro fuel
  induction fuel with
  | zero =>
    intro visited mst seq hsub hne hfuel
    simp only [primsLoop]
    omega
  | succ fuel ih =>
    intro visited mst seq hsub hne hfuel
    by_cases hc : visited.card < S.card
    · obtain ⟨m, hm⟩ := findMinEdge_isSome (frontier_exists hcomp hsub hne hc)
      have hfm := findMinEdge_frontier hm
      have hnv : newVertex m visited ∉ visited := newVertex_not_mem hfm
      have hmS : newVertex m visited ∈ S := by
        have hmem := hend m (findMinEdge_mem hm)
        rcases newVertex_spec hfm with ⟨-, -, h3⟩ | ⟨-, -, h3⟩ <;> rw [h3]
        · exact hmem.2
        · exact hmem.1
      simp only [primsLoop]
      rw [if_pos hc, hm]
      dsimp only
      have hsub' : insert (newVertex m visited) visited ⊆ S :=
        Finset.insert_subset hmS hsub
      have hcard : (insert (newVertex m visited) visited).card = visited.card + 1 :=
        Finset.card_insert_of_not_mem hnv
      rw [ih _ _ _ hsub' ⟨_, Finset.mem_insert_self _ _⟩ (by omega)]
      rw [List.length_append, hcard]
      simp only [List.length_singleton]
      omega
    · simp only [primsLoop]
      rw [if_neg hc]
      dsimp only
      omega

/-- Claim C2: for a non-empty point list with distinct identifiers, the
complete candidate edge list, and a resolved start (an explicit id of
one of the points, or the first-point fallback), the returned `sequence`
has exactly `n - 1` edges. -/
theorem spec_C2_sequence_length (villages : List Village)
    (hlen : 1 ≤ villages.length) (hnodup : (idsOf villages).Nodup)
    (start : Option Int)
    (hstart : start = none ∨ ∃ s, start = some s ∧ s ∈ idsOf villages) :
    (runPrimsAlgorithm villages (completeEdges villages) start).sequence.length =
      villages.length - 1 := by
  cases villages with
  | nil => simp at hlen
  | cons v rest =>
    have hScard : (idsOf (v :: rest)).toFinset.card = (v :: rest).length := by
      rw [List.toFinset_card_of_nodup hnodup]
      simp [idsOf]
    have hstart' : (start.getD v.id) ∈ (idsOf (v :: rest)).toFinset := by
      rcases hstart with rfl | ⟨s, rfl, hs⟩
      · simp [Option.getD, idsOf_cons]
      · simpa [Option.getD] using hs
    have hend := completeEdges_endpoints (v :: rest)
    have hcomp := completeEdges_complete (v :: rest)
    have hkey := primsLoop_length (idsOf (v :: rest)).toFinset (completeEdges (v :: rest))
      (fun e he => by
        have hh := hend e he
        exact ⟨List.mem_toFinset.2 hh.1, List.mem_toFinset.2 hh.2⟩)
      (fun x hx y hy hxy =>
        hcomp x y (List.mem_toFinset.1 hx) (List.mem_toFinset.1 hy) hxy)
      (v :: rest).length {start.getD v.id} [] []
      (Finset.singleton_subset_iff.2 hstart') ⟨_, Finset.mem_singleton_self _⟩
      (by rw [hScard]; simp)
    show (primsLoop (v :: rest).length (completeEdges (v :: rest)) (v :: rest).length
      {start.getD v.id} [] []).sequence.length = (v :: rest).length - 1
    rw [← hScard] at *
    simpa [Finset.card_singleton] using hkey

/-- Witness for C2 at a concrete two-point input with explicit start. -/
theorem spec_C2_sequence_length_witness :
    (1 ≤ ([⟨1, 0, 0⟩, ⟨2, 0, 0⟩] : List Village).length ∧
        (idsOf [⟨1, 0, 0⟩, ⟨2, 0, 0⟩]).Nodup ∧
        (some 2 = none ∨ ∃ s, (some 2 = some s) ∧ s ∈ idsOf [⟨1, 0, 0⟩, ⟨2, 0, 0⟩])) ∧
      (runPrimsAlgorithm [⟨1, 0, 0⟩, ⟨2, 0, 0⟩]
        (completeEdges [⟨1, 0, 0⟩, ⟨2, 0, 0⟩]) (some 2)).sequence.length =
        ([⟨1, 0, 0⟩, ⟨2, 0, 0⟩] : List Village).length - 1 :=
  ⟨⟨by simp, by simp [idsOf], Or.inr ⟨2, rfl, by simp [idsOf]⟩⟩,
    spec_C2_sequence_length [⟨1, 0, 0⟩, ⟨2, 0, 0⟩] (by simp) (by simp [idsOf])
      (some 2) (Or.inr ⟨2, rfl, by simp [idsOf]⟩)⟩

/-- Reachability is monotone in the pair set. -/
theorem reach_mono {E F : Finset (Int × Int)} (h : E ⊆ F) {u v : Int}
    (huv : Reach E u v) : Reach F u v := by
  induction huv with
  | refl => exact Relation.ReflTransGen.refl
  | @tail c d _ hcd ih =>
    obtain ⟨g, hg, ht⟩ := hcd
    exact Relation.ReflTransGen.tail ih ⟨g, h hg, ht⟩

/-- A single step is symmetric. -/
theorem estep_symm {E : Finset (Int × Int)} {u v : Int} (h : EStep E u v) :
    EStep E v u := by
  obtain ⟨g, hg, ht⟩ := h
  have ht' : g = (u, v) ∨ g = (v, u) := ht
  exact ⟨g, hg, Or.symm ht'⟩

/-- Reachability is symmetric. -/
theorem reach_symm {E : Finset (Int × Int)} {u v : Int} (h : Reach E u v) :
    Reach E v u := by
  induction h with
  | refl => exact Relation.ReflTransGen.refl
  | @tail c d _ hcd ih =>
    exact Relation.ReflTransGen.trans (Relation.ReflTransGen.single (estep_symm hcd)) ih

/-- A stored pair joins its endpoints. -/
theorem reach_of_mem {E : Finset (Int × Int)} {g : Int × Int} (hg : g ∈ E) :
    Reach E g.1 g.2 :=
  Relation.ReflTransGen.single ⟨g, hg, Or.inl rfl⟩

/-- Decomposition of reachability over `insert g E`: either the pair `g`
is not needed, or the walk can be cut at `g` in one of its two
orientations. -/
theorem reach_insert_split {g : Int × Int} {E : Finset (Int × Int)} {u v : Int}
    (h : Reach (insert g E) u v) :
    Reach E u v ∨ (Reach E u g.1 ∧ Reach E g.2 v) ∨
      (Reach E u g.2 ∧ Reach E g.1 v) := by
  induction h with
  | refl => exact Or.inl Relation.ReflTransGen.refl
  | @tail c d _ hcd ih =>
    obtain ⟨g', hg', ht⟩ := hcd
    rcases Finset.mem_insert.1 hg' with heq | hg'
    · rw [heq] at ht
      have ht' : g = (c, d) ∨ g = (d, c) := ht
      rcases ht' with hgt | hgt
      · have h1 : g.1 = c := by rw [hgt]
        have h2 : g.2 = d := by rw [hgt]
        rcases ih with ih | ⟨ih1, ih2⟩ | ⟨ih1, ih2⟩
        · exact Or.inr (Or.inl ⟨by rw [h1]; exact ih,
            by rw [h2]; exact Relation.ReflTransGen.refl⟩)
        · exact Or.inr (Or.inl ⟨ih1, by rw [h2]; exact Relation.ReflTransGen.refl⟩)
        · exact Or.inl (by rw [← h2]; exact ih1)
      · have h1 : g.1 = d := by rw [hgt]
        have h2 : g.2 = c := by rw [hgt]
        rcases ih with ih | ⟨ih1, ih2⟩ | ⟨ih1, ih2⟩
        · exact Or.inr (Or.inr ⟨by rw [h2]; exact ih,
            by rw [h1]; exact Relation.ReflTransGen.refl⟩)
        · exact Or.inl (by rw [← h1]; exact ih1)
        · exact Or.inr (Or.inr ⟨ih1, by rw [h1]; exact Relation.ReflTransGen.refl⟩)
    · have step : EStep E c d := ⟨g', hg', ht⟩
      rcases ih with ih | ⟨ih1, ih2⟩ | ⟨ih1, ih2⟩
      · exact Or.inl (Relation.ReflTransGen.tail ih step)
      · exact Or.inr (Or.inl ⟨ih1, Relation.ReflTransGen.tail ih2 step⟩)
      · exact Or.inr (Or.inr ⟨ih1, Relation.ReflTransGen.tail ih2 step⟩)

/-- A walk from inside the cut `W` to outside it uses a crossing pair. -/
theorem exists_crossing {E : Finset (Int × Int)} {W : Finset Int} {a b : Int}
    (h : Reach E a b) (ha : a ∈ W) (hb : b ∉ W) : ∃ g ∈ E, Crosses W g := by
  revert hb
  induction h with
  | refl => exact fun hb => absurd ha hb
  | @tail c d _ hcd ih =>
    intro hd
    by_cases hc : c ∈ W
    · obtain ⟨g, hg, ht⟩ := hcd
      have ht' : g = (c, d) ∨ g = (d, c) := ht
      refine ⟨g, hg, ?_⟩
      rcases ht' with rfl | rfl
      · exact Or.inl ⟨hc, hd⟩
      · exact Or.inr ⟨hd, hc⟩
    · exact ih hc

/-- Reachability transfers to another pair set in which every used pair
has connected endpoints. -/
theorem reach_transfer {E F : Finset (Int × Int)}
    (hEF : ∀ g ∈ E, Reach F g.1 g.2) {u v : Int} (h : Reach E u v) :
    Reach F u v := by
  induction h with
  | refl => exact Relation.ReflTransGen.refl
  | @tail c d _ hcd ih =>
    obtain ⟨g, hg, ht⟩ := hcd
    have hreach := hEF g hg
    have ht' : g = (c, d) ∨ g = (d, c) := ht
    rcases ht' with rfl | rfl
    · exact Relation.ReflTransGen.trans ih hreach
    · exact Relation.ReflTransGen.trans ih (reach_symm hreach)

/-- From a vertex touched by no pair, nothing else is reachable. -/
theorem reach_isolated {E : Finset (Int × Int)} {b x : Int}
    (hiso : ∀ g ∈ E, g.1 ≠ b ∧ g.2 ≠ b) (h : Reach E b x) : x = b := by
  rcases Relation.ReflTransGen.cases_head h with heq | ⟨c, hbc, _⟩
  · exact heq.symm
  · obtain ⟨g, hg, ht⟩ := hbc
    have ht' : g = (b, c) ∨ g = (c, b) := ht
    rcases ht' with rfl | rfl
    · exact absurd rfl (hiso _ hg).1
    · exact absurd rfl (hiso _ hg).2

/-- Acyclicity restricts to subsets. -/
theorem acyclic_subset {E F : Finset (Int × Int)} (hFE : F ⊆ E)
    (hE : Acyclic E) : Acyclic F := by
  intro g hg hreach
  exact hE g (hFE hg)
    (reach_mono (Finset.erase_subset_erase _ hFE) hreach)

/-- In an acyclic pair set, a walk across the cut `W` can be charged to a
crossing pair whose removal disconnects the walk's endpoints. -/
theorem exists_crossing_bridge :
    ∀ (k : Nat) (E : Finset (Int × Int)), E.card ≤ k → Acyclic E →
      ∀ {W : Finset Int} {a b : Int}, Reach E a b → a ∈ W → b ∉ W →
      ∃ g ∈ E, Crosses W g ∧ ¬ Reach (E.erase g) a b := by
  intro k
  induction k with
  | zero =>
    intro E hcard hacy W a b hreach ha hb
    obtain ⟨g, hg, -⟩ := exists_crossing hreach ha hb
    rw [Finset.card_eq_zero.1 (Nat.le_zero.1 hcard)] at hg
    exact absurd hg (Finset.not_mem_empty g)
  | succ k ih =>
    intro E hcard hacy W a b hreach ha hb
    obtain ⟨f, hf, hcross⟩ := exists_crossing hreach ha hb
    by_cases hbr : Reach (E.erase f) a b
    · have hcard' : (E.erase f).card ≤ k := by
        have := Finset.card_erase_of_mem hf
        have := Finset.card_pos.2 ⟨f, hf⟩
        omega
      obtain ⟨f', hf', hcross', hnr⟩ :=
        ih (E.erase f) hcard' (acyclic_subset (Finset.erase_subset _ _) hacy) hbr ha hb
      refine ⟨f', Finset.mem_of_mem_erase hf', hcross', ?_⟩
      intro hre
      have hff' : f ≠ f' := by
        intro h
        rw [h] at hf'
        exact absurd hf' (Finset.not_mem_erase _ _)
      have hEe : insert f ((E.erase f).erase f') = E.erase f' := by
        rw [Finset.erase_right_comm]
        exact Finset.insert_erase (Finset.mem_erase.2 ⟨hff', hf⟩)
      rw [← hEe] at hre
      have hsub : (E.erase f).erase f' ⊆ E.erase f := Finset.erase_subset _ _
      rcases reach_insert_split hre with hre | ⟨h1, h2⟩ | ⟨h1, h2⟩
      · exact hnr hre
      · exact hacy f hf
          (Relation.ReflTransGen.trans (reach_symm (reach_mono hsub h1))
            (Relation.ReflTransGen.trans hbr (reach_symm (reach_mono hsub h2))))
      · exact hacy f hf
          (reach_symm (Relation.ReflTransGen.trans (reach_symm (reach_mono hsub h1))
            (Relation.ReflTransGen.trans hbr (reach_symm (reach_mono hsub h2)))))
    · exact ⟨f, hf, hcross, hbr⟩

/-- Swapping a bridge `f` for a new pair `p` joining `a` and `b` keeps
the pair set connected on `S`, provided removing `f` separated `a` from
`b`. -/
theorem connects_swap {M : Finset (Int × Int)} {S : Finset Int} {f p : Int × Int}
    {a b : Int} (hconn : Connects M S) (hf : f ∈ M) (htp : touches p a b)
    (hnr : ¬ Reach (M.erase f) a b) (haS : a ∈ S) (hbS : b ∈ S) :
    Connects (insert p (M.erase f)) S := by
  have hM : M = insert f (M.erase f) := (Finset.insert_erase hf).symm
  have hab : Reach (insert f (M.erase f)) a b := by
    rw [← hM]
    exact hconn a haS b hbS
  have hsub : M.erase f ⊆ insert p (M.erase f) := Finset.subset_insert _ _
  have hpstep : Reach (insert p (M.erase f)) a b :=
    Relation.ReflTransGen.single ⟨p, Finset.mem_insert_self _ _, htp⟩
  have hf12 : Reach (insert p (M.erase f)) f.1 f.2 := by
    rcases reach_insert_split hab with h | ⟨h1, h2⟩ | ⟨h1, h2⟩
    · exact absurd h hnr
    · exact Relation.ReflTransGen.trans (reach_symm (reach_mono hsub h1))
        (Relation.ReflTransGen.trans hpstep (reach_symm (reach_mono hsub h2)))
    · exact Relation.ReflTransGen.trans (reach_mono hsub h2)
        (Relation.ReflTransGen.trans (reach_symm hpstep) (reach_mono hsub h1))
  intro u hu v hv
  refine reach_transfer ?_ (hconn u hu v hv)
  intro g hg
  by_cases hgf : g = f
  · rw [hgf]; exact hf12
  · exact reach_of_mem (Finset.mem_insert_of_mem (Finset.mem_erase.2 ⟨hgf, hg⟩))

/-- Swapping a bridge `f` for a new pair `p` joining `a` and `b` keeps
the pair set acyclic, provided removing `f` separated `a` from `b` and
`p` is genuinely new. -/
theorem acyclic_swap {M : Finset (Int × Int)} {f p : Int × Int} {a b : Int}
    (hacy : Acyclic M) (hpM : p ∉ M) (htp : touches p a b)
    (hnr : ¬ Reach (M.erase f) a b) :
    Acyclic (insert p (M.erase f)) := by
  have hpMf : p ∉ M.erase f := fun h => hpM (Finset.mem_of_mem_erase h)
  intro g hg hre
  rcases Finset.mem_insert.1 hg with rfl | hg
  · rw [Finset.erase_insert hpMf] at hre
    have ht' : g = (a, b) ∨ g = (b, a) := htp
    rcases ht' with rfl | rfl
    · exact hnr hre
    · exact hnr (reach_symm hre)
  · have hgp : g ≠ p := fun h => hpMf (h ▸ hg)
    rw [Finset.erase_insert_of_ne hgp.symm] at hre
    have hgM : g ∈ M := (Finset.mem_erase.1 hg).2
    have hsub1 : (M.erase f).erase g ⊆ M.erase g :=
      Finset.erase_subset_erase _ (Finset.erase_subset _ _)
    have hsub2 : (M.erase f).erase g ⊆ M.erase f := Finset.erase_subset _ _
    have hgstep : Reach (M.erase f) g.1 g.2 := reach_of_mem hg
    rcases reach_insert_split hre with hre | ⟨h1, h2⟩ | ⟨h1, h2⟩
    · exact hacy g hgM (reach_mono hsub1 hre)
    · have hpp : Reach (M.erase f) p.1 p.2 :=
        Relation.ReflTransGen.trans (reach_symm (reach_mono hsub2 h1))
          (Relation.ReflTransGen.trans hgstep (reach_symm (reach_mono hsub2 h2)))
      have ht' : p = (a, b) ∨ p = (b, a) := htp
      rcases ht' with rfl | rfl
      · exact hnr hpp
      · exact hnr (reach_symm hpp)
    · have hpp : Reach (M.erase f) p.2 p.1 :=
        Relation.ReflTransGen.trans (reach_symm (reach_mono hsub2 h1))
          (Relation.ReflTransGen.trans hgstep (reach_symm (reach_mono hsub2 h2)))
      have ht' : p = (a, b) ∨ p = (b, a) := htp
      rcases ht' with rfl | rfl
      · exact hnr (reach_symm hpp)
      · exact hnr hpp

/-- A connecting subset of an acyclic pair set with endpoints inside `S`
is the whole set. -/
theorem tree_subset_eq {M T : Finset (Int × Int)} {S : Finset Int}
    (hacy : Acyclic M) (hTM : T ⊆ M) (hconn : Connects T S)
    (hend : ∀ g ∈ M, g.1 ∈ S ∧ g.2 ∈ S) : T = M := by
  refine Finset.Subset.antisymm hTM (fun g hg => ?_)
  by_contra hgT
  have hsub : T ⊆ M.erase g :=
    fun x hx => Finset.mem_erase.2 ⟨fun h => hgT (h ▸ hx), hTM hx⟩
  exact absurd (reach_mono hsub (hconn g.1 (hend g hg).1 g.2 (hend g hg).2))
    (hacy g hg)

/-- Adding a pair from a connected set to a new vertex keeps the grown
set connected. -/
theorem connects_insert {E : Finset (Int × Int)} {W : Finset Int} {p : Int × Int}
    {x b : Int} (hconn : Connects E W) (hx : x ∈ W) (htp : touches p x b) :
    Connects (insert p E) (insert b W) := by
  have hstep : Reach (insert p E) x b :=
    Relation.ReflTransGen.single ⟨p, Finset.mem_insert_self _ _, htp⟩
  have hsub : E ⊆ insert p E := Finset.subset_insert _ _
  intro u hu v hv
  have key : ∀ w, w ∈ insert b W → Reach (insert p E) x w := by
    intro w hw
    rcases Finset.mem_insert.1 hw with hwb | hw2
    · rw [hwb]; exact hstep
    · exact reach_mono hsub (hconn x hx w hw2)
  exact Relation.ReflTransGen.trans (reach_symm (key u hu)) (key v hv)

/-- Adding a pair reaching out of `W` to a pair set whose endpoints all
lie in `W` keeps it acyclic. -/
theorem acyclic_insert_new {E : Finset (Int × Int)} {W : Finset Int}
    {p : Int × Int} {x b : Int} (hacy : Acyclic E)
    (hendp : ∀ g ∈ E, g.1 ∈ W ∧ g.2 ∈ W) (hx : x ∈ W) (hb : b ∉ W)
    (htp : touches p x b) : Acyclic (insert p E) := by
  have hpE : p ∉ E := by
    intro h
    have hmem := hendp p h
    rcases (show p = (x, b) ∨ p = (b, x) from htp) with rfl | rfl
    · exact hb hmem.2
    · exact hb hmem.1
  have hiso : ∀ g ∈ E, g.1 ≠ b ∧ g.2 ≠ b := fun g hg =>
    ⟨fun h => hb (h ▸ (hendp g hg).1), fun h => hb (h ▸ (hendp g hg).2)⟩
  have hxb : x ≠ b := fun h => hb (h ▸ hx)
  have htp' : p = (x, b) ∨ p = (b, x) := htp
  intro g hg hre
  rcases Finset.mem_insert.1 hg with hgp0 | hg2
  · rw [hgp0, Finset.erase_insert hpE] at hre
    rcases htp' with hp | hp
    · have hre' : Reach E x b := by
        rw [hp] at hre
        exact hre
      exact hxb (reach_isolated hiso (reach_symm hre'))
    · have hre' : Reach E b x := by
        rw [hp] at hre
        exact hre
      exact hxb (reach_isolated hiso hre')
  · have hgp : g ≠ p := fun h => hpE (h ▸ hg2)
    rw [Finset.erase_insert_of_ne hgp.symm] at hre
    have hiso' : ∀ q ∈ E.erase g, q.1 ≠ b ∧ q.2 ≠ b :=
      fun q hq => hiso q (Finset.mem_of_mem_erase hq)
    rcases reach_insert_split hre with hre | ⟨h1, h2⟩ | ⟨h1, h2⟩
    · exact hacy g hg2 hre
    · rcases htp' with hp | hp
      · have h2' : Reach (E.erase g) b g.2 := by
          rw [hp] at h2
          exact h2
        have hgb := reach_isolated hiso' h2'
        exact hb (hgb ▸ (hendp g hg2).2)
      · have h1' : Reach (E.erase g) g.1 b := by
          rw [hp] at h1
          exact h1
        have hgb := reach_isolated hiso' (reach_symm h1')
        exact hb (hgb ▸ (hendp g hg2).1)
    · rcases htp' with hp | hp
      · have h1' : Reach (E.erase g) g.1 b := by
          rw [hp] at h1
          exact h1
        have hgb := reach_isolated hiso' (reach_symm h1')
        exact hb (hgb ▸ (hendp g hg2).1)
      · have h2' : Reach (E.erase g) b g.2 := by
          rw [hp] at h2
          exact h2
        have hgb := reach_isolated hiso' h2'
        exact hb (hgb ▸ (hendp g hg2).2)

/-- Membership in the pair set of an edge list. -/
theorem mem_prFinset {α : Type} {l : List (Edge α)} {q : Int × Int} :
    q ∈ prFinset l ↔ ∃ e ∈ l, pr e = q := by
  simp [prFinset]

/-- Appending one edge inserts its pair. -/
theorem prFinset_append {α : Type} (l : List (Edge α)) (e : Edge α) :
    prFinset (l ++ [e]) = insert (pr e) (prFinset l) := by
  ext q
  simp only [mem_prFinset, List.mem_append, List.mem_singleton, Finset.mem_insert]
  constructor
  · rintro ⟨e2, he2 | rfl, hpr⟩
    · exact Or.inr ⟨e2, he2, hpr⟩
    · exact Or.inl hpr.symm
  · rintro (rfl | ⟨e2, he2, hpr⟩)
    · exact ⟨e, Or.inr rfl, rfl⟩
    · exact ⟨e2, Or.inl he2, hpr⟩

/-- Candidate edges with distinct point identifiers never join a point
to itself. -/
theorem completeEdges_ne :
    ∀ (vs : List Village), (idsOf vs).Nodup →
      ∀ e ∈ completeEdges vs, e.«from» ≠ e.«to» := by
  intro vs
  induction vs with
  | nil => intro _ e he; simp [completeEdges] at he
  | cons v rest ih =>
    intro hnd e he
    rw [idsOf_cons, List.nodup_cons] at hnd
    obtain ⟨hv, hrest⟩ := hnd
    simp only [completeEdges, List.mem_append, List.mem_map] at he
    rcases he with ⟨u, hu, rfl⟩ | he
    · intro h
      exact hv (by rw [show v.id = u.id from h]; exact List.mem_map_of_mem _ hu)
    · exact ih hrest e he

/-- With distinct identifiers, the pair of a candidate edge determines
the edge, even up to swapping the orientation. -/
theorem completeEdges_inj :
    ∀ (vs : List Village), (idsOf vs).Nodup →
      ∀ e ∈ completeEdges vs, ∀ e2 ∈ completeEdges vs,
        pr e2 = pr e ∨ pr e2 = ((pr e).2, (pr e).1) → e2 = e := by
  intro vs
  induction vs with
  | nil => intro _ e he; simp [completeEdges] at he
  | cons v rest ih =>
    intro hnd e he e2 he2 hor
    rw [idsOf_cons, List.nodup_cons] at hnd
    obtain ⟨hv, hrest⟩ := hnd
    simp only [completeEdges, List.mem_append, List.mem_map] at he he2
    rcases he with ⟨u, hu, rfl⟩ | he
    · rcases he2 with ⟨u2, hu2, rfl⟩ | he2
      · rcases hor with hpr | hpr
        · have hid : u2.id = u.id := by
            have := congrArg Prod.snd hpr
            simpa [pr] using this
          rw [List.inj_on_of_nodup_map
            (show (rest.map Village.id).Nodup from hrest) hu2 hu hid]
        · exfalso
          have hid : v.id = u.id := by
            have := congrArg Prod.fst hpr
            simpa [pr] using this
          exact hv (by rw [hid]; exact List.mem_map_of_mem _ hu)
      · exfalso
        have hend2 := completeEdges_endpoints rest e2 he2
        rcases hor with hpr | hpr
        · have hid : e2.«from» = v.id := by
            have := congrArg Prod.fst hpr
            simpa [pr] using this
          exact hv (by rw [← hid]; exact hend2.1)
        · have hid : e2.«from» = u.id ∧ e2.«to» = v.id := by
            constructor
            · have := congrArg Prod.fst hpr
              simpa [pr] using this
            · have := congrArg Prod.snd hpr
              simpa [pr] using this
          exact hv (by rw [← hid.2]; exact hend2.2)
    · rcases he2 with ⟨u2, hu2, rfl⟩ | he2
      · exfalso
        have hend1 := completeEdges_endpoints rest e he
        rcases hor with hpr | hpr
        · have hid : v.id = e.«from» := by
            have := congrArg Prod.fst hpr
            simpa [pr] using this
          exact hv (by rw [hid]; exact hend1.1)
        · have hid : v.id = e.«to» := by
            have := congrArg Prod.fst hpr
            simpa [pr] using this
          exact hv (by rw [hid]; exact hend1.2)
      · exact ih hrest e he e2 he2 hor

/-- On a candidate list whose members are determined by their pairs, the
pair weight of a member's pair is the member's weight. -/
theorem pairWeight_eq {es : List (Edge ℝ)}
    (hinj : ∀ e ∈ es, ∀ e2 ∈ es, pr e2 = pr e → e2 = e) {e : Edge ℝ}
    (he : e ∈ es) : pairWeight es (pr e) = e.weight := by
  cases hfind : es.find? (fun e2 => decide (pr e2 = pr e)) with
  | none =>
    exfalso
    have := List.find?_eq_none.1 hfind e he
    simp at this
  | some e2 =>
    have hmem := List.mem_of_find?_eq_some hfind
    have hpr : pr e2 = pr e := by
      have := List.find?_some hfind
      simpa using this
    rw [pairWeight, hfind]
    simp [hinj e he e2 hmem hpr]

/-- The total weight of a pair-distinct edge list as a sum over its pair
set. -/
theorem mstWeight_sum (w : Int × Int → ℝ) :
    ∀ (l : List (Edge ℝ)), (l.map pr).Nodup → (∀ e ∈ l, w (pr e) = e.weight) →
      mstWeight l = ∑ p in prFinset l, w p := by
  intro l
  induction l with
  | nil => intro _ _; simp [mstWeight, prFinset]
  | cons e rest ih =>
    intro hnd hw
    rw [List.map_cons, List.nodup_cons] at hnd
    have hpf : pr e ∉ prFinset rest := by
      intro h
      obtain ⟨e2, he2, hpr⟩ := mem_prFinset.1 h
      exact hnd.1 (hpr ▸ List.mem_map_of_mem pr he2)
    have h1 : prFinset (e :: rest) = insert (pr e) (prFinset rest) := by
      ext q
      simp only [mem_prFinset, List.mem_cons, Finset.mem_insert]
      constructor
      · rintro ⟨e2, rfl | he2, hpr⟩
        · exact Or.inl hpr.symm
        · exact Or.inr ⟨e2, he2, hpr⟩
      · rintro (rfl | ⟨e2, he2, hpr⟩)
        · exact ⟨e, Or.inl rfl, rfl⟩
        · exact ⟨e2, Or.inr he2, hpr⟩
    rw [h1, Finset.sum_insert hpf, mstWeight, List.map_cons, List.sum_cons,
      hw e (List.mem_cons_self _ _),
      show (rest.map Edge.weight).sum = mstWeight rest from rfl,
      ih hnd.2 (fun e2 he2 => hw e2 (List.mem_cons_of_mem _ he2))]

/-- The star of all candidate edges at a hub `s` is a spanning tree of
the candidate graph. -/
theorem star_aux {es st : List (Edge ℝ)} {S : Finset Int} {s : Int}
    (hsS : s ∈ S)
    (hstsub : ∀ e ∈ st, e ∈ es)
    (hstmem : ∀ e ∈ st, e.«from» = s ∨ e.«to» = s)
    (hstfull : ∀ e ∈ es, (e.«from» = s ∨ e.«to» = s) → e ∈ st)
    (hcomp : ∀ x ∈ S, ∀ y ∈ S, x ≠ y →
      ∃ e ∈ es, (e.«from» = x ∧ e.«to» = y) ∨ (e.«from» = y ∧ e.«to» = x))
    (hne : ∀ e ∈ es, e.«from» ≠ e.«to»)
    (hinj : ∀ e ∈ es, ∀ e2 ∈ es,
      pr e2 = pr e ∨ pr e2 = ((pr e).2, (pr e).1) → e2 = e) :
    IsSpanningTree (prFinset es) S (prFinset st) := by
  refine ⟨?_, ?_, ?_⟩
  · intro q hq
    obtain ⟨e, hest, hpr⟩ := mem_prFinset.1 hq
    exact mem_prFinset.2 ⟨e, hstsub e hest, hpr⟩
  · have key : ∀ u ∈ S, Reach (prFinset st) s u := by
      intro u hu
      by_cases hus : u = s
      · rw [hus]
        exact Relation.ReflTransGen.refl
      · obtain ⟨e, hee, hor⟩ := hcomp s hsS u hu (fun h => hus h.symm)
        have hest : e ∈ st := by
          refine hstfull e hee ?_
          rcases hor with ⟨h1, -⟩ | ⟨-, h2⟩
          · exact Or.inl h1
          · exact Or.inr h2
        refine Relation.ReflTransGen.single ⟨pr e, mem_prFinset.2 ⟨e, hest, rfl⟩, ?_⟩
        rcases hor with ⟨h1, h2⟩ | ⟨h1, h2⟩
        · exact Or.inl (Prod.ext h1 h2)
        · exact Or.inr (Prod.ext h1 h2)
    intro u hu v hv
    exact Relation.ReflTransGen.trans (reach_symm (key u hu)) (key v hv)
  · intro g hg hre
    obtain ⟨e, hest, hpr⟩ := mem_prFinset.1 hg
    have hee := hstsub e hest
    have hnee := hne e hee
    rcases hstmem e hest with hfs | hts
    · -- the hub side is `from`; the leaf `e.to` is isolated without `g`
      have hys : e.«to» ≠ s := fun h => hnee (by rw [hfs, h])
      have hiso : ∀ q ∈ (prFinset st).erase g, q.1 ≠ e.«to» ∧ q.2 ≠ e.«to» := by
        intro q hq
        obtain ⟨hqg, hqT⟩ := Finset.mem_erase.1 hq
        obtain ⟨e2, he2st, hpr2⟩ := mem_prFinset.1 hqT
        have he2 := hstsub e2 he2st
        have hq1 : e2.«from» = q.1 := congrArg Prod.fst hpr2
        have hq2 : e2.«to» = q.2 := congrArg Prod.snd hpr2
        constructor
        · intro h1
          have hf2 : e2.«from» = e.«to» := hq1.trans h1
          have hto2 : e2.«to» = s := by
            rcases hstmem e2 he2st with h | h
            · exact absurd (hf2.symm.trans h) hys
            · exact h
          have he2e : e2 = e := hinj e hee e2 he2
            (Or.inr (Prod.ext hf2 (hto2.trans hfs.symm)))
          exact hqg (by rw [← hpr2, he2e, hpr])
        · intro h2
          have ht2 : e2.«to» = e.«to» := hq2.trans h2
          have hf2 : e2.«from» = s := by
            rcases hstmem e2 he2st with h | h
            · exact h
            · exact absurd (ht2.symm.trans h) hys
          have he2e : e2 = e := hinj e hee e2 he2
            (Or.inl (Prod.ext (hf2.trans hfs.symm) ht2))
          exact hqg (by rw [← hpr2, he2e, hpr])
      have hg1 : e.«from» = g.1 := congrArg Prod.fst hpr
      have hg2 : e.«to» = g.2 := congrArg Prod.snd hpr
      rw [← hg1, ← hg2] at hre
      exact hnee (reach_isolated hiso (reach_symm hre))
    · -- the hub side is `to`; the leaf `e.from` is isolated without `g`
      have hys : e.«from» ≠ s := fun h => hnee (h.trans hts.symm)
      have hiso : ∀ q ∈ (prFinset st).erase g, q.1 ≠ e.«from» ∧ q.2 ≠ e.«from» := by
        intro q hq
        obtain ⟨hqg, hqT⟩ := Finset.mem_erase.1 hq
        obtain ⟨e2, he2st, hpr2⟩ := mem_prFinset.1 hqT
        have he2 := hstsub e2 he2st
        have hq1 : e2.«from» = q.1 := congrArg Prod.fst hpr2
        have hq2 : e2.«to» = q.2 := congrArg Prod.snd hpr2
        constructor
        · intro h1
          have hf2 : e2.«from» = e.«from» := hq1.trans h1
          have hto2 : e2.«to» = s := by
            rcases hstmem e2 he2st with h | h
            · exact absurd (hf2.symm.trans h) hys
            · exact h
          have he2e : e2 = e := hinj e hee e2 he2
            (Or.inl (Prod.ext hf2 (hto2.trans hts.symm)))
          exact hqg (by rw [← hpr2, he2e, hpr])
        · intro h2
          have ht2 : e2.«to» = e.«from» := hq2.trans h2
          have hf2 : e2.«from» = s := by
            rcases hstmem e2 he2st with h | h
            · exact h
            · exact absurd (ht2.symm.trans h) hys
          have he2e : e2 = e := hinj e hee e2 he2
            (Or.inr (Prod.ext (hf2.trans hts.symm) ht2))
          exact hqg (by rw [← hpr2, he2e, hpr])
      have hg1 : e.«from» = g.1 := congrArg Prod.fst hpr
      have hg2 : e.«to» = g.2 := congrArg Prod.snd hpr
      rw [← hg1, ← hg2] at hre
      exact hnee (reach_isolated hiso hre).symm

/-- The candidate graph of a complete edge list over points with
distinct identifiers has a spanning tree. -/
theorem star_spanning (vs : List Village) (hnd : (idsOf vs).Nodup) {s : Int}
    (hs : s ∈ idsOf vs) :
    ∃ T, IsSpanningTree (prFinset (completeEdges vs)) (idsOf vs).toFinset T := by
  classical
  refine ⟨prFinset ((completeEdges vs).filter
    (fun e => decide (e.«from» = s ∨ e.«to» = s))), star_aux (List.mem_toFinset.2 hs)
    (fun e he => (List.mem_filter.1 he).1)
    (fun e he => of_decide_eq_true (List.mem_filter.1 he).2)
    (fun e he hp => List.mem_filter.2 ⟨he, decide_eq_true hp⟩)
    (fun x hx y hy hxy => completeEdges_complete vs x y
      (List.mem_toFinset.1 hx) (List.mem_toFinset.1 hy) hxy)
    (completeEdges_ne vs hnd)
    (completeEdges_inj vs hnd)⟩

/-- When the loop has visited everything, its accumulated pair set is
exactly any spanning tree containing it. -/
theorem exchange_finish {es : List (Edge ℝ)} {S : Finset Int}
    (hend : ∀ e ∈ es, e.«from» ∈ S ∧ e.«to» ∈ S)
    {mstAcc : List (Edge ℝ)} {M : Finset (Int × Int)}
    (hconn : Connects (prFinset mstAcc) S)
    (hM : IsSpanningTree (prFinset es) S M)
    (hsubM : prFinset mstAcc ⊆ M) : prFinset mstAcc = M := by
  have hM' : M ⊆ prFinset es ∧ Connects M S ∧ Acyclic M := hM
  refine tree_subset_eq hM'.2.2 hsubM hconn ?_
  intro g hgM
  obtain ⟨e, hee, hpr⟩ := mem_prFinset.1 (hM'.1 hgM)
  have h1 : e.«from» = g.1 := congrArg Prod.fst hpr
  have h2 : e.«to» = g.2 := congrArg Prod.snd hpr
  exact ⟨h1 ▸ (hend e hee).1, h2 ▸ (hend e hee).2⟩

/-- The exchange argument along the loop: from any spanning tree `M`
containing the accumulated pairs, the finished run produces a spanning
tree of total weight at most that of `M`. -/
theorem primsLoop_exchange {es : List (Edge ℝ)} {S : Finset Int}
    (hend : ∀ e ∈ es, e.«from» ∈ S ∧ e.«to» ∈ S)
    (hcomp : ∀ x ∈ S, ∀ y ∈ S, x ≠ y →
      ∃ e ∈ es, (e.«from» = x ∧ e.«to» = y) ∨ (e.«from» = y ∧ e.«to» = x))
    (hinj : ∀ e ∈ es, ∀ e2 ∈ es, pr e2 = pr e → e2 = e) :
    ∀ (fuel : Nat) (visited : Finset Int) (mstAcc seqAcc : List (Edge ℝ))
      (M : Finset (Int × Int)),
      visited ⊆ S → visited.Nonempty → S.card - visited.card ≤ fuel →
      Connects (prFinset mstAcc) visited →
      Acyclic (prFinset mstAcc) →
      (∀ q ∈ prFinset mstAcc, q.1 ∈ visited ∧ q.2 ∈ visited) →
      (mstAcc.map pr).Nodup →
      (∀ e ∈ mstAcc, e ∈ es) →
      IsSpanningTree (prFinset es) S M →
      prFinset mstAcc ⊆ M →
      ∃ M', IsSpanningTree (prFinset es) S M' ∧
        prFinset ((primsLoop S.card es fuel visited mstAcc seqAcc).mst) = M' ∧
        (((primsLoop S.card es fuel visited mstAcc seqAcc).mst).map pr).Nodup ∧
        (∀ e ∈ (primsLoop S.card es fuel visited mstAcc seqAcc).mst, e ∈ es) ∧
        ∑ p in M', pairWeight es p ≤ ∑ p in M, pairWeight es p := by
  intro fuel
  induction fuel with
  | zero =>
    intro visited mstAcc seqAcc M hsub hvne hfuel hconnAcc hacyAcc hendAcc
      hnodupAcc hmemAcc hM hsubM
    have hveq : visited = S := Finset.eq_of_subset_of_card_le hsub (by omega)
    rw [hveq] at hconnAcc
    exact ⟨M, hM, exchange_finish hend hconnAcc hM hsubM, hnodupAcc, hmemAcc,
      le_refl _⟩
  | succ fuel ih =>
    intro visited mstAcc seqAcc M hsub hvne hfuel hconnAcc hacyAcc hendAcc
      hnodupAcc hmemAcc hM hsubM
    by_cases hc : visited.card < S.card
    · obtain ⟨m, hm⟩ := findMinEdge_isSome (frontier_exists hcomp hsub hvne hc)
      have hres : primsLoop S.card es (fuel + 1) visited mstAcc seqAcc =
          primsLoop S.card es fuel (insert (newVertex m visited) visited)
            (mstAcc ++ [m]) (seqAcc ++ [m]) := by
        simp only [primsLoop]
        rw [if_pos hc, hm]
      rw [hres]
      have hfm := findMinEdge_frontier hm
      have hmm := findMinEdge_mem hm
      obtain ⟨l₁, l₂, -, -, -, hmin⟩ := findMinEdge_some_spec hm
      have hbV : newVertex m visited ∉ visited := newVertex_not_mem hfm
      obtain ⟨a, haV, htouch⟩ :
          ∃ a, a ∈ visited ∧ touches (pr m) a (newVertex m visited) := by
        rcases newVertex_spec hfm with ⟨h1, h2, h3⟩ | ⟨h1, h2, h3⟩
        · exact ⟨m.«from», h1, Or.inl (Prod.ext rfl h3.symm)⟩
        · exact ⟨m.«to», h2, Or.inr (Prod.ext h3.symm rfl)⟩
      have hbS : newVertex m visited ∈ S := by
        rcases newVertex_spec hfm with ⟨-, -, h3⟩ | ⟨-, -, h3⟩ <;> rw [h3]
        · exact (hend m hmm).2
        · exact (hend m hmm).1
      have haS : a ∈ S := hsub haV
      have hsub' : insert (newVertex m visited) visited ⊆ S :=
        Finset.insert_subset hbS hsub
      have hvne' : (insert (newVertex m visited) visited).Nonempty :=
        ⟨_, Finset.mem_insert_self _ _⟩
      have hcard' : (insert (newVertex m visited) visited).card = visited.card + 1 :=
        Finset.card_insert_of_not_mem hbV
      have hfuel' : S.card - (insert (newVertex m visited) visited).card ≤ fuel := by
        omega
      have hprApp : prFinset (mstAcc ++ [m]) = insert (pr m) (prFinset mstAcc) :=
        prFinset_append _ _
      have hconn' : Connects (prFinset (mstAcc ++ [m]))
          (insert (newVertex m visited) visited) := by
        rw [hprApp]
        exact connects_insert hconnAcc haV htouch
      have hacy' : Acyclic (prFinset (mstAcc ++ [m])) := by
        rw [hprApp]
        exact acyclic_insert_new hacyAcc hendAcc haV hbV htouch
      have hend' : ∀ q ∈ prFinset (mstAcc ++ [m]),
          q.1 ∈ insert (newVertex m visited) visited ∧
            q.2 ∈ insert (newVertex m visited) visited := by
        rw [hprApp]
        intro q hq
        rcases Finset.mem_insert.1 hq with rfl | hq
        · rcases (show pr m = (a, newVertex m visited) ∨
              pr m = (newVertex m visited, a) from htouch) with hp | hp
          · constructor
            · rw [hp]
              exact Finset.mem_insert_of_mem haV
            · rw [hp]
              exact Finset.mem_insert_self _ _
          · constructor
            · rw [hp]
              exact Finset.mem_insert_self _ _
            · rw [hp]
              exact Finset.mem_insert_of_mem haV
        · have hq2 := hendAcc q hq
          exact ⟨Finset.mem_insert_of_mem hq2.1, Finset.mem_insert_of_mem hq2.2⟩
      have hprm_not : pr m ∉ mstAcc.map pr := by
        intro hq
        have hqT : pr m ∈ prFinset mstAcc := List.mem_toFinset.2 hq
        have hend2 := hendAcc _ hqT
        rcases (show pr m = (a, newVertex m visited) ∨
            pr m = (newVertex m visited, a) from htouch) with hp | hp
        · have h2 : (pr m).2 = newVertex m visited := by rw [hp]
          exact hbV (h2 ▸ hend2.2)
        · have h1 : (pr m).1 = newVertex m visited := by rw [hp]
          exact hbV (h1 ▸ hend2.1)
      have hnodup' : ((mstAcc ++ [m]).map pr).Nodup := by
        rw [List.map_append]
        refine List.Nodup.append hnodupAcc (List.nodup_singleton _) ?_
        intro q hq1 hq2
        rw [List.mem_singleton.1 hq2] at hq1
        exact hprm_not hq1
      have hmem' : ∀ e ∈ mstAcc ++ [m], e ∈ es := by
        intro e he
        rcases List.mem_append.1 he with he | he
        · exact hmemAcc e he
        · rw [List.mem_singleton.1 he]
          exact hmm
      by_cases hpM : pr m ∈ M
      · have hsubM' : prFinset (mstAcc ++ [m]) ⊆ M := by
          rw [hprApp]
          exact Finset.insert_subset hpM hsubM
        exact ih _ _ _ M hsub' hvne' hfuel' hconn' hacy' hend' hnodup' hmem'
          hM hsubM'
      · have hM' : M ⊆ prFinset es ∧ Connects M S ∧ Acyclic M := hM
        have hreachM : Reach M a (newVertex m visited) := hM'.2.1 a haS _ hbS
        obtain ⟨f, hfM, hfcross, hfnr⟩ :=
          exists_crossing_bridge M.card M (le_refl _) hM'.2.2 hreachM haV hbV
        obtain ⟨ef, hef, hpref⟩ := mem_prFinset.1 (hM'.1 hfM)
        have he1 : ef.«from» = f.1 := congrArg Prod.fst hpref
        have he2 : ef.«to» = f.2 := congrArg Prod.snd hpref
        have heffront : isFrontier visited ef = true := by
          rcases hfcross with ⟨h1, h2⟩ | ⟨h1, h2⟩
          · exact (isFrontier_true_iff _ _).2
              (Or.inl ⟨by rw [he1]; exact h1, by rw [he2]; exact h2⟩)
          · exact (isFrontier_true_iff _ _).2
              (Or.inr ⟨by rw [he1]; exact h1, by rw [he2]; exact h2⟩)
        have hwle : m.weight ≤ ef.weight := hmin ef hef heffront
        have htree'' : IsSpanningTree (prFinset es) S (insert (pr m) (M.erase f)) := by
          refine ⟨?_, ?_, ?_⟩
          · intro q hq
            rcases Finset.mem_insert.1 hq with rfl | hq
            · exact mem_prFinset.2 ⟨m, hmm, rfl⟩
            · exact hM'.1 (Finset.mem_of_mem_erase hq)
          · exact connects_swap hM'.2.1 hfM htouch hfnr haS hbS
          · exact acyclic_swap hM'.2.2 hpM htouch hfnr
        have hsubM'' : prFinset (mstAcc ++ [m]) ⊆ insert (pr m) (M.erase f) := by
          rw [hprApp]
          refine Finset.insert_subset (Finset.mem_insert_self _ _) ?_
          intro q hq
          refine Finset.mem_insert_of_mem (Finset.mem_erase.2 ⟨?_, hsubM hq⟩)
          intro hqf
          have hend2 := hendAcc q hq
          rcases hfcross with ⟨h1, h2⟩ | ⟨h1, h2⟩
          · exact h2 (hqf ▸ hend2.2)
          · exact h1 (hqf ▸ hend2.1)
        have hsum : ∑ p in insert (pr m) (M.erase f), pairWeight es p ≤
            ∑ p in M, pairWeight es p := by
          have hpmnotin : pr m ∉ M.erase f :=
            fun h => hpM (Finset.mem_of_mem_erase h)
          rw [Finset.sum_insert hpmnotin, Finset.sum_erase_eq_sub hfM]
          have hwm : pairWeight es (pr m) = m.weight := pairWeight_eq hinj hmm
          have hwf : pairWeight es f = ef.weight := by
            rw [← hpref]
            exact pairWeight_eq hinj hef
          rw [hwm, hwf]
          linarith
        obtain ⟨M2, hM2tree, hM2eq, hM2nodup, hM2mem, hM2sum⟩ :=
          ih _ _ _ (insert (pr m) (M.erase f)) hsub' hvne' hfuel' hconn' hacy'
            hend' hnodup' hmem' htree'' hsubM''
        exact ⟨M2, hM2tree, hM2eq, hM2nodup, hM2mem, le_trans hM2sum hsum⟩
    · have hres : primsLoop S.card es (fuel + 1) visited mstAcc seqAcc =
          ⟨mstAcc, seqAcc⟩ := by
        simp only [primsLoop]
        rw [if_neg hc]
      rw [hres]
      have hveq : visited = S := Finset.eq_of_subset_of_card_le hsub (by omega)
      rw [hveq] at hconnAcc
      exact ⟨M, hM, exchange_finish hend hconnAcc hM hsubM, hnodupAcc, hmemAcc,
        le_refl _⟩

/-- Claim C1: for ≥ 2 points with distinct identifiers, the complete
haversine-weighted candidate edge list, and a start id of one of the
points, the total weight of the returned `mst` is the least total weight
over all spanning trees of the candidate graph. -/
theorem spec_C1_minimality (villages : List Village) (h2 : 2 ≤ villages.length)
    (hnodup : (idsOf villages).Nodup) (s : Int) (hs : s ∈ idsOf villages) :
    IsLeast {x : ℝ | ∃ T, IsSpanningTree (prFinset (completeEdges villages))
        (idsOf villages).toFinset T ∧
        x = ∑ p in T, pairWeight (completeEdges villages) p}
      (mstWeight (runPrimsAlgorithm villages (completeEdges villages) (some s)).mst) := by
  cases villages with
  | nil => simp at h2
  | cons v rest =>
    have hScard : (idsOf (v :: rest)).toFinset.card = (v :: rest).length := by
      rw [List.toFinset_card_of_nodup hnodup]
      simp [idsOf]
    have hend' : ∀ e ∈ completeEdges (v :: rest),
        e.«from» ∈ (idsOf (v :: rest)).toFinset ∧
          e.«to» ∈ (idsOf (v :: rest)).toFinset := by
      intro e he
      have hh := completeEdges_endpoints (v :: rest) e he
      exact ⟨List.mem_toFinset.2 hh.1, List.mem_toFinset.2 hh.2⟩
    have hcomp' : ∀ x ∈ (idsOf (v :: rest)).toFinset,
        ∀ y ∈ (idsOf (v :: rest)).toFinset, x ≠ y →
        ∃ e ∈ completeEdges (v :: rest),
          (e.«from» = x ∧ e.«to» = y) ∨ (e.«from» = y ∧ e.«to» = x) :=
      fun x hx y hy hxy => completeEdges_complete (v :: rest) x y
        (List.mem_toFinset.1 hx) (List.mem_toFinset.1 hy) hxy
    have hinj' : ∀ e ∈ completeEdges (v :: rest), ∀ e2 ∈ completeEdges (v :: rest),
        pr e2 = pr e → e2 = e :=
      fun e he e2 he2 hpr => completeEdges_inj (v :: rest) hnodup e he e2 he2
        (Or.inl hpr)
    have hsub1 : ({s} : Finset Int) ⊆ (idsOf (v :: rest)).toFinset :=
      Finset.singleton_subset_iff.2 (List.mem_toFinset.2 hs)
    have hvne1 : ({s} : Finset Int).Nonempty := ⟨s, Finset.mem_singleton_self s⟩
    have hconn1 : Connects (prFinset ([] : List (Edge ℝ))) {s} := by
      intro u hu w hw
      rw [Finset.mem_singleton.1 hu, Finset.mem_singleton.1 hw]
      exact Relation.ReflTransGen.refl
    have hacy1 : Acyclic (prFinset ([] : List (Edge ℝ))) := by
      intro g hg
      simp [prFinset] at hg
    have hend1 : ∀ q ∈ prFinset ([] : List (Edge ℝ)),
        q.1 ∈ ({s} : Finset Int) ∧ q.2 ∈ ({s} : Finset Int) := by
      intro q hq
      simp [prFinset] at hq
    have hempty : ∀ (T : Finset (Int × Int)), prFinset ([] : List (Edge ℝ)) ⊆ T := by
      intro T q hq
      simp [prFinset] at hq
    have hrun : ∀ (M : Finset (Int × Int)),
        IsSpanningTree (prFinset (completeEdges (v :: rest)))
          (idsOf (v :: rest)).toFinset M →
        ∃ M', IsSpanningTree (prFinset (completeEdges (v :: rest)))
            (idsOf (v :: rest)).toFinset M' ∧
          prFinset ((primsLoop (idsOf (v :: rest)).toFinset.card
            (completeEdges (v :: rest)) (v :: rest).length {s} [] []).mst) = M' ∧
          (((primsLoop (idsOf (v :: rest)).toFinset.card
            (completeEdges (v :: rest)) (v :: rest).length {s} [] []).mst).map pr).Nodup ∧
          (∀ e ∈ (primsLoop (idsOf (v :: rest)).toFinset.card
            (completeEdges (v :: rest)) (v :: rest).length {s} [] []).mst,
            e ∈ completeEdges (v :: rest)) ∧
          ∑ p in M', pairWeight (completeEdges (v :: rest)) p ≤
            ∑ p in M, pairWeight (completeEdges (v :: rest)) p :=
      fun M hMtree => primsLoop_exchange hend' hcomp' hinj' (v :: rest).length
        {s} [] [] M hsub1 hvne1 (by omega) hconn1 hacy1 hend1 (by simp)
        (by simp) hMtree (hempty M)
    have hgoal : runPrimsAlgorithm (v :: rest) (completeEdges (v :: rest)) (some s) =
        primsLoop (idsOf (v :: rest)).toFinset.card (completeEdges (v :: rest))
          (v :: rest).length {s} [] [] := by
      rw [hScard]
      rfl
    rw [hgoal]
    obtain ⟨T₀, hT₀⟩ := star_spanning (v :: rest) hnodup hs
    constructor
    · obtain ⟨M1, h1tree, h1eq, h1nodup, h1mem, -⟩ := hrun T₀ hT₀
      refine ⟨M1, h1tree, ?_⟩
      rw [mstWeight_sum (pairWeight (completeEdges (v :: rest))) _ h1nodup
        (fun e he => pairWeight_eq hinj' (h1mem e he)), h1eq]
    · rintro x ⟨T, hTtree, rfl⟩
      obtain ⟨M2, -, h2eq, h2nodup, h2mem, h2sum⟩ := hrun T hTtree
      rw [mstWeight_sum (pairWeight (completeEdges (v :: rest))) _ h2nodup
        (fun e he => pairWeight_eq hinj' (h2mem e he)), h2eq]
      exact h2sum

/-- Witness for C1 at a concrete two-point input. -/
theorem spec_C1_minimality_witness :
    (2 ≤ ([⟨1, 0, 0⟩, ⟨2, 1, 1⟩] : List Village).length ∧
        (idsOf [⟨1, 0, 0⟩, ⟨2, 1, 1⟩]).Nodup ∧ (1 : Int) ∈ idsOf [⟨1, 0, 0⟩, ⟨2, 1, 1⟩]) ∧
      IsLeast {x : ℝ | ∃ T, IsSpanningTree
          (prFinset (completeEdges [⟨1, 0, 0⟩, ⟨2, 1, 1⟩]))
          (idsOf [⟨1, 0, 0⟩, ⟨2, 1, 1⟩]).toFinset T ∧
          x = ∑ p in T, pairWeight (completeEdges [⟨1, 0, 0⟩, ⟨2, 1, 1⟩]) p}
        (mstWeight (runPrimsAlgorithm [⟨1, 0, 0⟩, ⟨2, 1, 1⟩]
          (completeEdges [⟨1, 0, 0⟩, ⟨2, 1, 1⟩]) (some 1)).mst) :=
  ⟨⟨by simp, by simp [idsOf], by simp [idsOf]⟩,
    spec_C1_minimality [⟨1, 0, 0⟩, ⟨2, 1, 1⟩] (by simp) (by simp [idsOf]) 1
      (by simp [idsOf])⟩
